import Mathlib

/-!
Verification development for the query-builder repository.

The repository is a visual query-builder: a React frontend (under
`src/frontend`) that edits a recursive rule-group structure and a backend
that compiles that structure into a parameterized SQL WHERE clause and
executes it.  The backend SQL compiler itself is not part of the source
snapshot; it is modelled here from the specification (section 4.1 of
`spec.md`), definition by definition.  The frontend pieces (saving and
loading a query as JSON, the per-table operator mapping) are embedded from
the TypeScript source.
-/

namespace QB

/-- A scalar value supplied by the user in a rule: string, integer or
boolean.  Spec section 3 calls these `Scalar`. -/
inductive Scalar where
  | s (v : String)
  | i (v : Int)
  | b (v : Bool)
deriving DecidableEq, Repr

/-- The boolean combinator of a rule group (`AND`/`OR`). -/
inductive Comb where
  | and
  | or
deriving DecidableEq, Repr

/-- The closed operator enumeration of spec section 3. -/
inductive Operator where
  | eq
  | ne
  | lt
  | le
  | gt
  | ge
  | contains
  | beginsWith
  | endsWith
  | isNull
  | isNotNull
  | inOp
  | notInOp
  | between
deriving DecidableEq, Repr

/-- Compile-time errors of the compiler, exactly the validation error kinds
named by the spec (sections 4.1 and 7): unknown field, empty `IN` list, and
bad operator/value arity. -/
inductive CompileError where
  | unknownField
  | emptyListOperand
  | badOperandArity
deriving DecidableEq, Repr

/-- A node of the rule tree: either a rule (with its value shape split by
constructor: single scalar, scalar list, subquery reference, or no value)
or a nested group.  This is the spec's `Rule | RuleGroup` sum with the
spec's `value : Scalar | List<Scalar> | SubqueryRef` inlined; a subquery
reference carries its target table, its `selectFields` and its `where`
rule group (combinator, negate flag, children). -/
inductive RuleNode where
  | rule (field : String) (op : Operator) (v : Scalar)
  | ruleList (field : String) (op : Operator) (vs : List Scalar)
  | ruleSub (field : String) (op : Operator) (tb : String) (sel : List String)
      (wc : Comb) (wn : Bool) (wch : List RuleNode)
  | ruleNoVal (field : String) (op : Operator)
  | group (comb : Comb) (negate : Bool) (children : List RuleNode)

/-- Field metadata: each queryable table paired with its list of field
names (the Field Metadata Provider of spec section 2). -/
def Metadata := List (String × List String)

/-- Look up the field list of a table in the metadata. -/
def fieldsOf (md : Metadata) (tb : String) : Option (List String) :=
  match md with
  | [] => none
  | (t, fl) :: rest => if t = tb then some fl else fieldsOf rest tb

mutual

/-- Modelled from the spec: "Each Rule resolves `field` against Field
Metadata for the given table; unknown field is a CompileError
(`UnknownField`)" and "Table and field names ... are resolved through the
closed Field Metadata set".  This validation pass resolves every field of
the tree (descending into subquery `where` trees against the subquery's
own table, and checking a subquery's `selectFields` against that table;
empty `selectFields` mean the single comparison-relevant column, i.e. the
rule's own field) and is run by `compile` before any SQL is emitted.  A
failed resolution, including an unknown table, surfaces as
`CompileError.unknownField`. -/
def checkNode (md : Metadata) (fl : List String) : RuleNode → Except CompileError Unit
  | .rule f _ _ => if f ∈ fl then .ok () else .error .unknownField
  | .ruleList f _ _ => if f ∈ fl then .ok () else .error .unknownField
  | .ruleNoVal f _ => if f ∈ fl then .ok () else .error .unknownField
  | .ruleSub f _ tb sel _ _ wch =>
      if f ∈ fl then
        match fieldsOf md tb with
        | none => .error .unknownField
        | some sfl =>
            if (match sel with
                | [] => decide (f ∈ sfl)
                | _ => sel.all (fun c => decide (c ∈ sfl))) then
              checkNodes md sfl wch
            else .error .unknownField
      else .error .unknownField
  | .group _ _ ch => checkNodes md fl ch

/-- Field resolution over a list of sibling nodes, left to right. -/
def checkNodes (md : Metadata) (fl : List String) : List RuleNode → Except CompileError Unit
  | [] => .ok ()
  | x :: xs =>
      match checkNode md fl x with
      | .error e => .error e
      | .ok _ => checkNodes md fl xs

end

/-- The SQL fragment of a binary comparison operator. -/
def opSql : Operator → String
  | .gt => ">"
  | .ge => ">="
  | .eq => "="
  | .ne => "!="
  | .lt => "<"
  | .le => "<="
  | _ => "LIKE"

/-- Is the operator a simple binary comparison taking one scalar operand
(placeholder-bound)?  `contains`/`beginsWith`/`endsWith` render as `LIKE`
with the scalar bound as the placeholder parameter. -/
def isBinaryOp : Operator → Bool
  | .eq | .ne | .lt | .le | .gt | .ge | .contains | .beginsWith | .endsWith => true
  | _ => false

/-- `IN` / `NOT IN` keyword. -/
def inKw : Operator → String
  | .notInOp => "NOT IN"
  | _ => "IN"

/-- A comma-separated list of `n` positional placeholders, one per list
element (spec: "emit `field IN (?, ?, …)` with one placeholder per list
element"). -/
def phList : Nat → String
  | 0 => ""
  | 1 => "?"
  | n + 2 => "?, " ++ phList (n + 1)

/-- The SQL keyword joining sibling expressions for a combinator. -/
def combSql : Comb → String
  | .and => " AND "
  | .or => " OR "

/-- Join compiled sibling fragments with the group's combinator keyword,
concatenating their parameter lists in the same left-to-right order (the
spec's placeholder/parameter alignment discipline). -/
def joinParts (c : Comb) : List (String × List Scalar) → String × List Scalar
  | [] => ("true", [])
  | [p] => p
  | p :: q :: ps =>
      let r := joinParts c (q :: ps)
      (p.1 ++ combSql c ++ r.1, p.2 ++ r.2)

/-- Modelled from the spec: render a rule group standalone from its
compiled child fragments.  "Empty group emits the boolean literal `true`"
(a tautology contributing no filter); otherwise children are joined by the
combinator keyword and the whole expression is prefixed with the negation
keyword when `negate` is set. -/
def renderGroup (c : Comb) (n : Bool) (parts : List (String × List Scalar)) :
    String × List Scalar :=
  match parts with
  | [] => ("true", [])
  | _ =>
      let j := joinParts c parts
      (if n then "NOT (" ++ j.1 ++ ")" else j.1, j.2)

mutual

/-- Modelled from the spec (section 4.1): compile one child node in the
context of its parent group's combinator `pc`.  Returns `none` for a child
contributing no constraint (the spec's recommended policy: "empty group
contributes no constraint, i.e. it is elided from its parent's child list").
Scalar values are never interpolated: every scalar is emitted as a `?`
placeholder with the value appended to the returned parameter list.  A
child group is parenthesized when negated or when its combinator differs
from its parent's ("any two sibling expressions joined by a different
combinator than their parent must be individually parenthesized").
`in`/`notIn` with a literal list emits one placeholder per element and
rejects the empty list with `emptyListOperand`; with a subquery reference
it recursively compiles the referenced group against the referenced table
into `SELECT col FROM tb WHERE …`, splicing the nested parameters into the
parent parameter list at the position of the nested text (multi-column
`selectFields` are rejected at compile time); `between` requires exactly
two scalars; `null`/`notNull` accept no value; any other operator/value
shape mismatch is `badOperandArity`. -/
def compileNode (pc : Comb) : RuleNode → Except CompileError (Option (String × List Scalar))
  | .rule f op v =>
      if isBinaryOp op then .ok (some (f ++ " " ++ opSql op ++ " ?", [v]))
      else .error .badOperandArity
  | .ruleList f op vs =>
      match op with
      | .between =>
          match vs with
          | [a, b] => .ok (some (f ++ " BETWEEN ? AND ?", [a, b]))
          | _ => .error .badOperandArity
      | .inOp | .notInOp =>
          match vs with
          | [] => .error .emptyListOperand
          | _ => .ok (some (f ++ " " ++ inKw op ++ " (" ++ phList vs.length ++ ")", vs))
      | _ => .error .badOperandArity
  | .ruleSub f op tb sel wc wn wch =>
      match op with
      | .inOp | .notInOp =>
          match sel with
          | [] =>
              match compileNodes wc wch with
              | .error e => .error e
              | .ok parts =>
                  let j := renderGroup wc wn parts
                  .ok (some (f ++ " " ++ inKw op ++ " (SELECT " ++ f ++ " FROM " ++ tb
                      ++ " WHERE " ++ j.1 ++ ")", j.2))
          | [col] =>
              match compileNodes wc wch with
              | .error e => .error e
              | .ok parts =>
                  let j := renderGroup wc wn parts
                  .ok (some (f ++ " " ++ inKw op ++ " (SELECT " ++ col ++ " FROM " ++ tb
                      ++ " WHERE " ++ j.1 ++ ")", j.2))
          | _ => .error .badOperandArity
      | _ => .error .badOperandArity
  | .ruleNoVal f op =>
      match op with
      | .isNull => .ok (some (f ++ " IS NULL", []))
      | .isNotNull => .ok (some (f ++ " IS NOT NULL", []))
      | _ => .error .badOperandArity
  | .group c n ch =>
      match compileNodes c ch with
      | .error e => .error e
      | .ok [] => .ok none
      | .ok (p :: ps) =>
          let j := joinParts c (p :: ps)
          .ok (some
            (if n then "NOT (" ++ j.1 ++ ")"
             else if c = pc then j.1
             else "(" ++ j.1 ++ ")", j.2))

/-- Compile a list of sibling nodes left to right, dropping children that
contribute no constraint and short-circuiting on the first error. -/
def compileNodes (pc : Comb) : List RuleNode → Except CompileError (List (String × List Scalar))
  | [] => .ok []
  | x :: xs =>
      match compileNode pc x with
      | .error e => .error e
      | .ok none => compileNodes pc xs
      | .ok (some p) =>
          match compileNodes pc xs with
          | .error e => .error e
          | .ok ps => .ok (p :: ps)

end

/-- Modelled from the spec: the SQL Compiler contract
`compile(tree: RuleGroup, table) -> Result<(sqlText, params), CompileError>`.
The tree's top-level group is given by its combinator `c`, negate flag `n`
and children `ch`.  Field resolution against the metadata runs first (a
validation pass, "surfaced to the caller before any store access"); then
the tree is compiled recursively.  -/
def compile (md : Metadata) (tb : String) (c : Comb) (n : Bool)
    (ch : List RuleNode) : Except CompileError (String × List Scalar) :=
  match fieldsOf md tb with
  | none => .error .unknownField
  | some fl =>
      match checkNodes md fl ch with
      | .error e => .error e
      | .ok _ =>
          match compileNodes c ch with
          | .error e => .error e
          | .ok parts => .ok (renderGroup c n parts)

/-- Modelled from the spec (sections 4.2 and 6): the request handler of
`POST /queries/execute`.  The Query Execution Gateway is abstracted as a
function `gw` from compiled SQL text and bound parameters to result rows;
the handler compiles first and only invokes the gateway on success, so a
compile/validation error is surfaced "before any store access". -/
inductive ExecResponse where
  | failure (e : CompileError)
  | success (rows : List (List Scalar))
deriving DecidableEq, Repr

/-- Modelled from the spec: compile, then run the gateway on the compiled
text and parameters (never re-interpolating the text). -/
def executeRequest (gw : String → List Scalar → List (List Scalar))
    (md : Metadata) (tb : String) (c : Comb) (n : Bool) (ch : List RuleNode) :
    ExecResponse :=
  match compile md tb c n ch with
  | .error e => .failure e
  | .ok (s, ps) => .success (gw s ps)

mutual

/-- The scalar leaf values of a node in left-to-right tree order — the
values the compiler consumes as parameters (including values inside
nested subquery trees, at the position of the subquery). -/
def leavesNode : RuleNode → List Scalar
  | .rule _ _ v => [v]
  | .ruleList _ _ vs => vs
  | .ruleSub _ _ _ _ _ _ wch => leavesList wch
  | .ruleNoVal _ _ => []
  | .group _ _ ch => leavesList ch

/-- Scalar leaves of a sibling list, left to right. -/
def leavesList : List RuleNode → List Scalar
  | [] => []
  | x :: xs => leavesNode x ++ leavesList xs

end

mutual

/-- Replace every scalar leaf value of a node by applying `sub`,
preserving the tree shape (fields, operators, list lengths, nesting). -/
def mapScalarsNode (sub : Scalar → Scalar) : RuleNode → RuleNode
  | .rule f op v => .rule f op (sub v)
  | .ruleList f op vs => .ruleList f op (vs.map sub)
  | .ruleSub f op tb sel wc wn wch => .ruleSub f op tb sel wc wn (mapScalarsList sub wch)
  | .ruleNoVal f op => .ruleNoVal f op
  | .group c n ch => .group c n (mapScalarsList sub ch)

/-- `mapScalarsNode` over a sibling list. -/
def mapScalarsList (sub : Scalar → Scalar) : List RuleNode → List RuleNode
  | [] => []
  | x :: xs => mapScalarsNode sub x :: mapScalarsList sub xs

end

/-- Apply a scalar substitution to one compiled fragment: text untouched,
parameters mapped. -/
def msub (sub : Scalar → Scalar) (p : String × List Scalar) : String × List Scalar :=
  (p.1, p.2.map sub)

/-- Number of `?` placeholder characters in a string. -/
def countQ (s : String) : Nat := s.data.count '?'

/-- Does a string contain no `?` character (true of every identifier drawn
from well-formed field metadata)? -/
def noQ (s : String) : Bool := !(s.data.contains '?')

mutual

/-- All identifiers embedded in a node (field names, subquery table and
select-field names) are free of the `?` placeholder character. -/
def cleanNode : RuleNode → Bool
  | .rule f _ _ => noQ f
  | .ruleList f _ _ => noQ f
  | .ruleSub f _ tb sel _ _ wch =>
      noQ f && noQ tb && sel.all noQ && cleanList wch
  | .ruleNoVal f _ => noQ f
  | .group _ _ ch => cleanList ch

/-- `cleanNode` over a sibling list. -/
def cleanList : List RuleNode → Bool
  | [] => true
  | x :: xs => cleanNode x && cleanList xs

end

mutual

/-- Does a rule at top-table scope have a field outside the given field
list?  Descends through nested groups (a rule inside a nested group still
resolves against the same table) but not into subquery trees, which
resolve against their own table. -/
def hasUnknownNode (fl : List String) : RuleNode → Bool
  | .rule f _ _ => !(decide (f ∈ fl))
  | .ruleList f _ _ => !(decide (f ∈ fl))
  | .ruleSub f _ _ _ _ _ _ => !(decide (f ∈ fl))
  | .ruleNoVal f _ => !(decide (f ∈ fl))
  | .group _ _ ch => hasUnknownNodes fl ch

/-- `hasUnknownNode` over a sibling list. -/
def hasUnknownNodes (fl : List String) : List RuleNode → Bool
  | [] => false
  | x :: xs => hasUnknownNode fl x || hasUnknownNodes fl xs

end

/-- Boolean fold of a combinator over child truth values. -/
def foldComb : Comb → List Bool → Bool
  | .and, l => l.all id
  | .or, l => l.any id

mutual

/-- Modelled from the spec: the denotation of one child node over a row,
with leaf rules evaluated by an abstract row predicate `evR`.  A child
contributing no constraint (an empty group, recursively) denotes `none`
and is elided, mirroring the compiler's elision policy. -/
def satNode (evR : RuleNode → Bool) : RuleNode → Option Bool
  | .group c n ch =>
      match satNodes evR ch with
      | [] => none
      | b :: bs => some (if n then !(foldComb c (b :: bs)) else foldComb c (b :: bs))
  | r => some (evR r)

/-- Denotations of a sibling list, eliding children with no constraint. -/
def satNodes (evR : RuleNode → Bool) : List RuleNode → List Bool
  | [] => []
  | x :: xs =>
      match satNode evR x with
      | none => satNodes evR xs
      | some b => b :: satNodes evR xs

end

/-- Modelled from the spec: the denotation of a rule group over a row.
"Invariant: a group with zero children compiles to a tautology (no filter
contributed)": a group whose children contribute no constraint denotes
`true`; otherwise the combinator folds the children and `negate` flips the
result. -/
def satGroup (evR : RuleNode → Bool) (c : Comb) (n : Bool) (ch : List RuleNode) : Bool :=
  match satNodes evR ch with
  | [] => true
  | b :: bs => if n then !(foldComb c (b :: bs)) else foldComb c (b :: bs)

/-! ### Helper lemmas about the compiler -/

theorem joinParts_snd (c : Comb) : ∀ parts, (joinParts c parts).2 = (parts.map Prod.snd).flatten
  | [] => by simp [joinParts]
  | [p] => by simp [joinParts]
  | p :: q :: ps => by
      have ih := joinParts_snd c (q :: ps)
      simp only [joinParts, List.map_cons, List.flatten_cons] at ih ⊢
      rw [ih]

theorem renderGroup_snd (c : Comb) (n : Bool) (parts : List (String × List Scalar)) :
    (renderGroup c n parts).2 = (parts.map Prod.snd).flatten := by
  cases parts with
  | nil => simp [renderGroup]
  | cons p ps => simp [renderGroup, joinParts_snd]

mutual

theorem checkNode_ok_or (md : Metadata) (fl : List String) :
    ∀ x : RuleNode, checkNode md fl x = .ok () ∨ checkNode md fl x = .error .unknownField
  | .rule f op v => by
      simp only [checkNode]
      split <;> simp
  | .ruleList f op vs => by
      simp only [checkNode]
      split <;> simp
  | .ruleNoVal f op => by
      simp only [checkNode]
      split <;> simp
  | .ruleSub f op tb sel wc wn wch => by
      simp only [checkNode]
      split
      · split
        · simp
        · next sfl _ =>
            split
            · exact checkNodes_ok_or md sfl wch
            · simp
      · simp
  | .group c n ch => checkNodes_ok_or md fl ch

theorem checkNodes_ok_or (md : Metadata) (fl : List String) :
    ∀ xs : List RuleNode, checkNodes md fl xs = .ok () ∨ checkNodes md fl xs = .error .unknownField
  | [] => by simp [checkNodes]
  | x :: xs => by
      simp only [checkNodes]
      rcases checkNode_ok_or md fl x with h | h <;> rw [h]
      · exact checkNodes_ok_or md fl xs
      · simp

end

mutual

theorem hasUnknownNode_check (md : Metadata) (fl : List String) :
    ∀ x : RuleNode, hasUnknownNode fl x = true → ¬ checkNode md fl x = .ok ()
  | .rule f op v => by
      simp only [hasUnknownNode, checkNode]
      intro h
      rw [if_neg (by simpa using h)]
      simp
  | .ruleList f op vs => by
      simp only [hasUnknownNode, checkNode]
      intro h
      rw [if_neg (by simpa using h)]
      simp
  | .ruleNoVal f op => by
      simp only [hasUnknownNode, checkNode]
      intro h
      rw [if_neg (by simpa using h)]
      simp
  | .ruleSub f op tb sel wc wn wch => by
      simp only [hasUnknownNode, checkNode]
      intro h
      rw [if_neg (by simpa using h)]
      simp
  | .group c n ch => by
      simpa only [hasUnknownNode, checkNode] using hasUnknownNodes_check md fl ch

theorem hasUnknownNodes_check (md : Metadata) (fl : List String) :
    ∀ xs : List RuleNode, hasUnknownNodes fl xs = true → ¬ checkNodes md fl xs = .ok ()
  | [] => by simp [hasUnknownNodes]
  | x :: xs => by
      simp only [hasUnknownNodes, checkNodes, Bool.or_eq_true]
      rintro (h | h)
      · rcases checkNode_ok_or md fl x with hc | hc
        · exact absurd hc (hasUnknownNode_check md fl x h)
        · rw [hc]; simp
      · rcases checkNode_ok_or md fl x with hc | hc
        · rw [hc]; exact hasUnknownNodes_check md fl xs h
        · rw [hc]; simp

end

theorem hasUnknown_check_error (md : Metadata) (fl : List String) (xs : List RuleNode)
    (h : hasUnknownNodes fl xs = true) : checkNodes md fl xs = .error .unknownField := by
  rcases checkNodes_ok_or md fl xs with hc | hc
  · exact absurd hc (hasUnknownNodes_check md fl xs h)
  · exact hc

theorem checkNodes_elim_empty (md : Metadata) (fl : List String) (c : Comb) (n : Bool) :
    ∀ l1 l2 : List RuleNode,
      checkNodes md fl (l1 ++ .group c n [] :: l2) = checkNodes md fl (l1 ++ l2)
  | [], l2 => by simp [checkNodes, checkNode]
  | x :: l1, l2 => by
      simp only [List.cons_append, checkNodes, List.append_eq]
      rw [checkNodes_elim_empty md fl c n l1 l2]

theorem compileNodes_elim_empty (pc : Comb) (c : Comb) (n : Bool) :
    ∀ l1 l2 : List RuleNode,
      compileNodes pc (l1 ++ .group c n [] :: l2) = compileNodes pc (l1 ++ l2)
  | [], l2 => by simp [compileNodes, compileNode]
  | x :: l1, l2 => by
      simp only [List.cons_append, compileNodes, List.append_eq]
      rw [compileNodes_elim_empty pc c n l1 l2]

mutual

theorem paramsNode : ∀ (pc : Comb) (x : RuleNode) (r : Option (String × List Scalar)),
    compileNode pc x = .ok r → r.elim [] Prod.snd = leavesNode x
  | pc, .rule f op v, r, h => by
      simp only [compileNode] at h
      split at h
      · cases h; simp [leavesNode]
      · cases h
  | pc, .ruleList f op vs, r, h => by
      simp only [compileNode] at h
      split at h
      · split at h
        · cases h; simp [leavesNode]
        · cases h
      · split at h
        · cases h
        · cases h; simp [leavesNode]
      · split at h
        · cases h
        · cases h; simp [leavesNode]
      · cases h
  | pc, .ruleSub f op tb sel wc wn wch, r, h => by
      simp only [compileNode] at h
      split at h
      case _ =>
        split at h
        · rename_i hc
          split at h
          · cases h
          · rename_i parts hp
            cases h
            have := paramsList wc wch parts hp
            simp [leavesNode, renderGroup_snd, this]
        · rename_i col _ hc
          split at h
          · cases h
          · rename_i parts hp
            cases h
            have := paramsList wc wch parts hp
            simp [leavesNode, renderGroup_snd, this]
        · cases h
      case _ =>
        split at h
        · rename_i hc
          split at h
          · cases h
          · rename_i parts hp
            cases h
            have := paramsList wc wch parts hp
            simp [leavesNode, renderGroup_snd, this]
        · rename_i col _ hc
          split at h
          · cases h
          · rename_i parts hp
            cases h
            have := paramsList wc wch parts hp
            simp [leavesNode, renderGroup_snd, this]
        · cases h
      case _ => cases h
  | pc, .ruleNoVal f op, r, h => by
      simp only [compileNode] at h
      split at h
      · cases h; simp [leavesNode]
      · cases h; simp [leavesNode]
      · cases h
  | pc, .group c n ch, r, h => by
      simp only [compileNode] at h
      split at h
      · cases h
      · rename_i hp
        cases h
        have := paramsList c ch [] hp
        simp at this
        simp [leavesNode, ← this]
      · rename_i p ps hp
        cases h
        have := paramsList c ch (p :: ps) hp
        simp only [leavesNode, ← this, Option.elim]
        exact joinParts_snd c (p :: ps)

theorem paramsList : ∀ (pc : Comb) (xs : List RuleNode) (parts : List (String × List Scalar)),
    compileNodes pc xs = .ok parts → (parts.map Prod.snd).flatten = leavesList xs
  | pc, [], parts, h => by
      simp only [compileNodes] at h
      cases h
      simp [leavesList]
  | pc, x :: xs, parts, h => by
      simp only [compileNodes] at h
      split at h
      · cases h
      · rename_i hx
        have hn := paramsNode pc x none hx
        simp only [Option.elim] at hn
        have := paramsList pc xs parts h
        simp [leavesList, ← hn, this]
      · rename_i p hx
        split at h
        · cases h
        · rename_i ps hps
          cases h
          have hn := paramsNode pc x (some p) hx
          simp only [Option.elim] at hn
          have := paramsList pc xs ps hps
          simp [leavesList, ← hn, this]

end

mutual

theorem checkNode_map : ∀ (md : Metadata) (fl : List String) (sub : Scalar → Scalar)
    (x : RuleNode), checkNode md fl (mapScalarsNode sub x) = checkNode md fl x
  | md, fl, sub, .rule f op v => rfl
  | md, fl, sub, .ruleList f op vs => rfl
  | md, fl, sub, .ruleNoVal f op => rfl
  | md, fl, sub, .ruleSub f op tb sel wc wn wch => by
      simp only [mapScalarsNode, checkNode]
      split
      case isTrue =>
        split
        case h_1 => rfl
        case h_2 =>
          split
          case isTrue => apply checkNodes_map
          case isFalse => rfl
      case isFalse => rfl
  | md, fl, sub, .group c n ch => by
      simp only [mapScalarsNode, checkNode]
      rw [checkNodes_map]

theorem checkNodes_map : ∀ (md : Metadata) (fl : List String) (sub : Scalar → Scalar)
    (xs : List RuleNode), checkNodes md fl (mapScalarsList sub xs) = checkNodes md fl xs
  | md, fl, sub, [] => rfl
  | md, fl, sub, x :: xs => by
      simp only [mapScalarsList, checkNodes]
      rw [checkNode_map, checkNodes_map]

end

theorem joinParts_msub (c : Comb) (sub : Scalar → Scalar) :
    ∀ parts, joinParts c (parts.map (msub sub)) = msub sub (joinParts c parts)
  | [] => rfl
  | [p] => rfl
  | p :: q :: ps => by
      have ih := joinParts_msub c sub (q :: ps)
      simp only [List.map_cons, joinParts] at ih ⊢
      rw [ih]
      simp [msub]

theorem renderGroup_msub (c : Comb) (n : Bool) (sub : Scalar → Scalar)
    (parts : List (String × List Scalar)) :
    renderGroup c n (parts.map (msub sub)) = msub sub (renderGroup c n parts) := by
  cases parts with
  | nil => rfl
  | cons p ps =>
      simp only [renderGroup, List.map_cons]
      rw [show (msub sub p :: ps.map (msub sub)) = ((p :: ps).map (msub sub)) by simp]
      rw [joinParts_msub c sub (p :: ps)]
      simp [msub]

mutual

theorem compileNode_map : ∀ (pc : Comb) (sub : Scalar → Scalar) (x : RuleNode),
    compileNode pc (mapScalarsNode sub x) = (compileNode pc x).map (Option.map (msub sub))
  | pc, sub, .rule f op v => by
      simp only [mapScalarsNode, compileNode]
      split <;> simp [Except.map, msub]
  | pc, sub, .ruleList f op vs => by
      simp only [mapScalarsNode, compileNode]
      match op with
      | .between =>
          match vs with
          | [] => rfl
          | [a] => rfl
          | [a, b] => simp [Except.map, msub]
          | a :: b :: c :: rest => rfl
      | .inOp =>
          match vs with
          | [] => rfl
          | v :: vs => simp [Except.map, msub]
      | .notInOp =>
          match vs with
          | [] => rfl
          | v :: vs => simp [Except.map, msub]
      | .eq | .ne | .lt | .le | .gt | .ge | .contains | .beginsWith | .endsWith
      | .isNull | .isNotNull => rfl
  | pc, sub, .ruleSub f op tb sel wc wn wch => by
      simp only [mapScalarsNode, compileNode]
      match op with
      | .inOp =>
          match sel with
          | [] =>
              rw [compileNodes_map]
              cases hc : compileNodes wc wch with
              | error e => simp [Except.map]
              | ok parts =>
                  simp only [Except.map]
                  rw [show parts.map (msub sub) = List.map (msub sub) parts from rfl]
                  rw [renderGroup_msub]
                  simp [msub]
          | [col] =>
              rw [compileNodes_map]
              cases hc : compileNodes wc wch with
              | error e => simp [Except.map]
              | ok parts =>
                  simp only [Except.map]
                  rw [renderGroup_msub]
                  simp [msub]
          | c1 :: c2 :: rest => rfl
      | .notInOp =>
          match sel with
          | [] =>
              rw [compileNodes_map]
              cases hc : compileNodes wc wch with
              | error e => simp [Except.map]
              | ok parts =>
                  simp only [Except.map]
                  rw [renderGroup_msub]
                  simp [msub]
          | [col] =>
              rw [compileNodes_map]
              cases hc : compileNodes wc wch with
              | error e => simp [Except.map]
              | ok parts =>
                  simp only [Except.map]
                  rw [renderGroup_msub]
                  simp [msub]
          | c1 :: c2 :: rest => rfl
      | .eq | .ne | .lt | .le | .gt | .ge | .contains | .beginsWith | .endsWith
      | .isNull | .isNotNull | .between => rfl
  | pc, sub, .ruleNoVal f op => by
      simp only [mapScalarsNode, compileNode]
      match op with
      | .isNull => rfl
      | .isNotNull => rfl
      | .eq | .ne | .lt | .le | .gt | .ge | .contains | .beginsWith | .endsWith
      | .inOp | .notInOp | .between => rfl
  | pc, sub, .group c n ch => by
      simp only [mapScalarsNode, compileNode]
      rw [compileNodes_map]
      cases hc : compileNodes c ch with
      | error e => simp [Except.map]
      | ok parts =>
          cases parts with
          | nil => simp [Except.map]
          | cons p ps =>
              have hj := joinParts_msub c sub (p :: ps)
              simp only [List.map_cons] at hj
              simp only [Except.map, List.map_cons]
              rw [hj]
              simp [msub, Option.map]

theorem compileNodes_map : ∀ (pc : Comb) (sub : Scalar → Scalar) (xs : List RuleNode),
    compileNodes pc (mapScalarsList sub xs) = (compileNodes pc xs).map (List.map (msub sub))
  | pc, sub, [] => rfl
  | pc, sub, x :: xs => by
      simp only [mapScalarsList, compileNodes]
      rw [compileNode_map]
      cases hx : compileNode pc x with
      | error e => simp [Except.map]
      | ok r =>
          cases r with
          | none =>
              simp only [Except.map, Option.map]
              rw [compileNodes_map]
              cases compileNodes pc xs <;> rfl
          | some p =>
              simp only [Except.map, Option.map]
              rw [compileNodes_map]
              cases hxs : compileNodes pc xs with
              | error e => simp [Except.map]
              | ok ps => simp [Except.map]

end

theorem countQ_append (s t : String) : countQ (s ++ t) = countQ s + countQ t := by
  simp [countQ, String.data_append]

theorem noQ_countQ (s : String) (h : noQ s = true) : countQ s = 0 := by
  simp only [noQ, List.contains, Bool.not_eq_eq_eq_not, Bool.not_true] at h
  simp only [countQ, List.count_eq_zero]
  intro hm
  rw [List.elem_iff.2 hm] at h
  cases h

theorem phList_count : ∀ n, countQ (phList n) = n
  | 0 => rfl
  | 1 => rfl
  | n + 2 => by
      have ih := phList_count (n + 1)
      simp only [phList, countQ_append, ih]
      have h1 : countQ "?, " = 1 := rfl
      omega

theorem opSql_count (op : Operator) : countQ (opSql op) = 0 := by
  cases op <;> rfl

theorem inKw_count (op : Operator) : countQ (inKw op) = 0 := by
  cases op <;> rfl

theorem combSql_count (c : Comb) : countQ (combSql c) = 0 := by
  cases c <;> rfl

/-- Sum of placeholder counts over compiled fragments. -/
def sumQ (parts : List (String × List Scalar)) : Nat :=
  (parts.map (fun p => countQ p.1)).sum

/-- Sum of parameter-list lengths over compiled fragments. -/
def sumLen (parts : List (String × List Scalar)) : Nat :=
  (parts.map (fun p => p.2.length)).sum

theorem joinParts_count (c : Comb) : ∀ parts, countQ (joinParts c parts).1 = sumQ parts
  | [] => rfl
  | [p] => by simp [joinParts, sumQ]
  | p :: q :: ps => by
      have ih := joinParts_count c (q :: ps)
      simp only [joinParts, countQ_append, combSql_count, sumQ, List.map_cons, List.sum_cons] at ih ⊢
      omega

theorem renderGroup_count (c : Comb) (n : Bool) (parts : List (String × List Scalar)) :
    countQ (renderGroup c n parts).1 = sumQ parts := by
  cases parts with
  | nil => rfl
  | cons p ps =>
      simp only [renderGroup]
      cases n with
      | false => simpa using joinParts_count c (p :: ps)
      | true =>
          simp only [if_true]
          rw [countQ_append, countQ_append]
          have := joinParts_count c (p :: ps)
          have h1 : countQ "NOT (" = 0 := rfl
          have h2 : countQ ")" = 0 := rfl
          omega

theorem renderGroup_len (c : Comb) (n : Bool) (parts : List (String × List Scalar)) :
    (renderGroup c n parts).2.length = sumLen parts := by
  rw [renderGroup_snd]
  rw [List.length_flatten, List.map_map]
  rfl

mutual

theorem countNode : ∀ (pc : Comb) (x : RuleNode) (s : String) (vs : List Scalar),
    cleanNode x = true → compileNode pc x = .ok (some (s, vs)) → countQ s = vs.length
  | pc, .rule f op v, s, vs, hcl, h => by
      simp only [cleanNode] at hcl
      simp only [compileNode] at h
      split at h
      · cases h
        simp only [List.length_cons, List.length_nil]
        simp only [countQ_append, noQ_countQ f hcl, opSql_count]
        rfl
      · cases h
  | pc, .ruleList f op vs0, s, vs, hcl, h => by
      simp only [cleanNode] at hcl
      simp only [compileNode] at h
      split at h
      · split at h
        · cases h
          simp only [List.length_cons, List.length_nil, countQ_append, noQ_countQ f hcl]
          have e1 : countQ " BETWEEN ? AND ?" = 2 := rfl
          omega
        · cases h
      · split at h
        · cases h
        · cases h
          simp only [countQ_append, noQ_countQ f hcl, inKw_count, phList_count]
          have e1 : countQ " " = 0 := rfl
          have e2 : countQ " (" = 0 := rfl
          have e3 : countQ ")" = 0 := rfl
          omega
      · split at h
        · cases h
        · cases h
          simp only [countQ_append, noQ_countQ f hcl, inKw_count, phList_count]
          have e1 : countQ " " = 0 := rfl
          have e2 : countQ " (" = 0 := rfl
          have e3 : countQ ")" = 0 := rfl
          omega
      · cases h
  | pc, .ruleSub f op tb sel wc wn wch, s, vs, hcl, h => by
      simp only [cleanNode, Bool.and_eq_true] at hcl
      obtain ⟨⟨⟨hf, htb⟩, hsel⟩, hwch⟩ := hcl
      simp only [compileNode] at h
      split at h
      case _ =>
        split at h
        · split at h
          · cases h
          · rename_i parts hp
            cases h
            have hc := countList wc wch parts hwch hp
            simp only [countQ_append, noQ_countQ f hf, noQ_countQ tb htb,
              inKw_count, renderGroup_count, renderGroup_len, hc]
            have e1 : countQ " " = 0 := rfl
            have e2 : countQ " (SELECT " = 0 := rfl
            have e3 : countQ " FROM " = 0 := rfl
            have e4 : countQ " WHERE " = 0 := rfl
            have e5 : countQ ")" = 0 := rfl
            omega
        · simp only [List.all_cons, List.all_nil, Bool.and_true] at hsel
          split at h
          · cases h
          · rename_i parts hp
            cases h
            have hc := countList wc wch parts hwch hp
            simp only [countQ_append, noQ_countQ f hf, noQ_countQ tb htb,
              noQ_countQ _ hsel, inKw_count, renderGroup_count, renderGroup_len, hc]
            have e1 : countQ " " = 0 := rfl
            have e2 : countQ " (SELECT " = 0 := rfl
            have e3 : countQ " FROM " = 0 := rfl
            have e4 : countQ " WHERE " = 0 := rfl
            have e5 : countQ ")" = 0 := rfl
            omega
        · cases h
      case _ =>
        split at h
        · split at h
          · cases h
          · rename_i parts hp
            cases h
            have hc := countList wc wch parts hwch hp
            simp only [countQ_append, noQ_countQ f hf, noQ_countQ tb htb,
              inKw_count, renderGroup_count, renderGroup_len, hc]
            have e1 : countQ " " = 0 := rfl
            have e2 : countQ " (SELECT " = 0 := rfl
            have e3 : countQ " FROM " = 0 := rfl
            have e4 : countQ " WHERE " = 0 := rfl
            have e5 : countQ ")" = 0 := rfl
            omega
        · simp only [List.all_cons, List.all_nil, Bool.and_true] at hsel
          split at h
          · cases h
          · rename_i parts hp
            cases h
            have hc := countList wc wch parts hwch hp
            simp only [countQ_append, noQ_countQ f hf, noQ_countQ tb htb,
              noQ_countQ _ hsel, inKw_count, renderGroup_count, renderGroup_len, hc]
            have e1 : countQ " " = 0 := rfl
            have e2 : countQ " (SELECT " = 0 := rfl
            have e3 : countQ " FROM " = 0 := rfl
            have e4 : countQ " WHERE " = 0 := rfl
            have e5 : countQ ")" = 0 := rfl
            omega
        · cases h
      case _ => cases h
  | pc, .ruleNoVal f op, s, vs, hcl, h => by
      simp only [cleanNode] at hcl
      simp only [compileNode] at h
      split at h
      · cases h
        simp only [countQ_append, noQ_countQ f hcl]
        rfl
      · cases h
        simp only [countQ_append, noQ_countQ f hcl]
        rfl
      · cases h
  | pc, .group c n ch, s, vs, hcl, h => by
      simp only [cleanNode] at hcl
      simp only [compileNode] at h
      split at h
      · cases h
      · cases h
      · rename_i p ps hp
        cases h
        have hc := countList c ch (p :: ps) hcl hp
        have hj := joinParts_count c (p :: ps)
        have hl : (joinParts c (p :: ps)).2.length = sumLen (p :: ps) := by
          rw [joinParts_snd]
          rw [List.length_flatten, List.map_map]
          rfl
        split
        · simp only [countQ_append, hj, hc]
          have e1 : countQ "NOT (" = 0 := rfl
          have e2 : countQ ")" = 0 := rfl
          omega
        · split
          · rw [hj, hc, hl]
          · simp only [countQ_append, hj, hc]
            have e1 : countQ "(" = 0 := rfl
            have e2 : countQ ")" = 0 := rfl
            omega

theorem countList : ∀ (pc : Comb) (xs : List RuleNode) (parts : List (String × List Scalar)),
    cleanList xs = true → compileNodes pc xs = .ok parts → sumQ parts = sumLen parts
  | pc, [], parts, hcl, h => by
      cases h
      rfl
  | pc, x :: xs, parts, hcl, h => by
      simp only [cleanList, Bool.and_eq_true] at hcl
      obtain ⟨hx, hxs⟩ := hcl
      simp only [compileNodes] at h
      split at h
      · cases h
      · exact countList pc xs parts hxs h
      · rename_i p hp
        split at h
        · cases h
        · rename_i ps hps
          cases h
          have h1 : countQ p.1 = p.2.length := countNode pc x p.1 p.2 hx (by rw [hp])
          have h2 := countList pc xs ps hxs hps
          simp only [sumQ, sumLen, List.map_cons, List.sum_cons] at h2 ⊢
          omega

end

/-! ### Concrete material used by witnesses -/

/-- Concrete field metadata mirroring the repository's sample tables
(users, products, orders). -/
def mdEx : Metadata :=
  [("users", ["user_id", "name", "age", "is_active"]),
   ("products", ["product_id", "name", "category", "price"]),
   ("orders", ["order_id", "user_id", "status", "total_amount"])]

/-- The spec's nested-subquery example rule:
`user_id IN (SELECT user_id FROM orders WHERE status = 'pending')`. -/
def subqEx : RuleNode :=
  .ruleSub "user_id" .inOp "orders" ["user_id"] .and false
    [.rule "status" .eq (.s "pending")]

/-- The spec's parenthesization example tree: an OR-group of two category
rules beside a price rule, inside an AND parent. -/
def orAndEx : List RuleNode :=
  [.group .or false
      [.rule "category" .eq (.s "Electronics"), .rule "category" .eq (.s "Furniture")],
   .rule "price" .lt (.i 500)]

/-! ### Claim theorems -/

/-- C1: for every RuleGroup tree and target table, the SQL text produced by
`compile` contains no user-supplied scalar value as a literal: the returned
parameter list is exactly the scalar leaf values in left-to-right tree
order (including parameters spliced in from nested subqueries), the SQL
text is invariant under any substitution of the scalar leaf values (so no
value can occur in it), and — when the metadata identifiers are free of
`?` — the number of `?` placeholders in the text equals the length of the
parameter list. -/
theorem compile_never_interpolates_scalars (md : Metadata) (tb : String) (c : Comb)
    (n : Bool) (ch : List RuleNode) (s : String) (ps : List Scalar)
    (h : compile md tb c n ch = .ok (s, ps)) :
    ps = leavesList ch
    ∧ (∀ sub : Scalar → Scalar,
        compile md tb c n (mapScalarsList sub ch) = .ok (s, ps.map sub))
    ∧ (cleanList ch = true → countQ s = ps.length) := by
  simp only [compile] at h
  cases hfl : fieldsOf md tb with
  | none => rw [hfl] at h; exact Except.noConfusion h
  | some fl =>
      simp only [hfl] at h
      cases hck : checkNodes md fl ch with
      | error e => rw [hck] at h; exact Except.noConfusion h
      | ok u =>
          simp only [hck] at h
          cases hcn : compileNodes c ch with
          | error e => rw [hcn] at h; exact Except.noConfusion h
          | ok parts =>
              simp only [hcn, Except.ok.injEq] at h
              have hs : (renderGroup c n parts).1 = s := by rw [h]
              have hps : (renderGroup c n parts).2 = ps := by rw [h]
              refine ⟨?_, ?_, ?_⟩
              · rw [← hps, renderGroup_snd]
                exact paramsList c ch parts hcn
              · intro sub
                simp only [compile, hfl, checkNodes_map, hck, compileNodes_map,
                  hcn, Except.map]
                rw [show List.map (msub sub) parts = parts.map (msub sub) from rfl,
                  renderGroup_msub, h]
                rfl
              · intro hclean
                rw [← hs, ← hps, renderGroup_count, renderGroup_len]
                exact countList c ch parts hclean hcn

theorem c1_witness :
    [Scalar.s "Electronics", Scalar.s "Furniture", Scalar.i 500] = leavesList orAndEx
    ∧ (∀ sub : Scalar → Scalar,
        compile mdEx "products" .and false (mapScalarsList sub orAndEx)
          = .ok ("(category = ? OR category = ?) AND price < ?",
              [Scalar.s "Electronics", Scalar.s "Furniture", Scalar.i 500].map sub))
    ∧ (cleanList orAndEx = true →
        countQ "(category = ? OR category = ?) AND price < ?"
          = [Scalar.s "Electronics", Scalar.s "Furniture", Scalar.i 500].length) :=
  compile_never_interpolates_scalars mdEx "products" .and false orAndEx
    "(category = ? OR category = ?) AND price < ?"
    [Scalar.s "Electronics", Scalar.s "Furniture", Scalar.i 500] rfl

/-- C2: for every rule whose operator is `in`/`notIn` with a SubqueryRef
value, `compile` recursively compiles the referenced RuleGroup against the
referenced table into a nested `SELECT`, and the nested subquery's
parameters are exactly the parameters attached to the fragment at the
position where the subquery text is inserted (so placeholder order and
parameter order stay aligned: `joinParts` concatenates fragment parameter
lists in fragment text order); in particular the spec's example rule on
`user_id` compiles to `user_id IN (SELECT user_id FROM orders WHERE
status = ?)` with parameter list `["pending"]`. -/
theorem compile_subquery_splice :
    (∀ (pc : Comb) (f : String) (op : Operator) (tb : String) (col : String)
        (wc : Comb) (wn : Bool) (wch : List RuleNode)
        (parts : List (String × List Scalar)),
        (op = .inOp ∨ op = .notInOp) → compileNodes wc wch = .ok parts →
        compileNode pc (.ruleSub f op tb [col] wc wn wch) =
          .ok (some (f ++ " " ++ inKw op ++ " (SELECT " ++ col ++ " FROM " ++ tb
            ++ " WHERE " ++ (renderGroup wc wn parts).1 ++ ")",
            (renderGroup wc wn parts).2)))
    ∧ (∀ (c : Comb) (parts : List (String × List Scalar)),
        (joinParts c parts).2 = (parts.map Prod.snd).flatten)
    ∧ compile mdEx "users" .and false [subqEx]
        = .ok ("user_id IN (SELECT user_id FROM orders WHERE status = ?)",
            [Scalar.s "pending"]) := by
  refine ⟨?_, joinParts_snd, rfl⟩
  intro pc f op tb col wc wn wch parts hop hp
  rcases hop with h1 | h1 <;> subst h1 <;> simp only [compileNode, hp]

theorem c2_witness :
    compileNode .and subqEx
      = .ok (some ("user_id" ++ " " ++ inKw .inOp ++ " (SELECT " ++ "user_id"
          ++ " FROM " ++ "orders" ++ " WHERE "
          ++ (renderGroup .and false [("status = ?", [Scalar.s "pending"])]).1 ++ ")",
          (renderGroup .and false [("status = ?", [Scalar.s "pending"])]).2)) :=
  compile_subquery_splice.1 .and "user_id" .inOp "orders" "user_id" .and false
    [.rule "status" .eq (.s "pending")] [("status = ?", [Scalar.s "pending"])]
    (Or.inl rfl) rfl

/-- C3: for every RuleGroup tree in which a child group's combinator
differs from its parent's, `compile` parenthesizes that child's expression
individually; in particular an OR-group of two category equality rules
nested beside a price rule inside a parent AND-group compiles to
`(category = ? OR category = ?) AND price < ?` with parameter list
`["Electronics", "Furniture", 500]`. -/
theorem compile_parenthesizes_mixed_combinators :
    (∀ (pc c : Comb) (ch : List RuleNode) (p : String × List Scalar)
        (ps : List (String × List Scalar)),
        c ≠ pc → compileNodes c ch = .ok (p :: ps) →
        compileNode pc (.group c false ch) =
          .ok (some ("(" ++ (joinParts c (p :: ps)).1 ++ ")",
            (joinParts c (p :: ps)).2)))
    ∧ compile mdEx "products" .and false orAndEx
        = .ok ("(category = ? OR category = ?) AND price < ?",
            [Scalar.s "Electronics", Scalar.s "Furniture", Scalar.i 500]) := by
  refine ⟨?_, rfl⟩
  intro pc c ch p ps hne hcn
  simp only [compileNode, hcn, Bool.false_eq_true, if_false]
  rw [if_neg hne]

theorem c3_witness :
    compileNode .and (.group .or false
        [.rule "category" .eq (.s "Electronics"), .rule "category" .eq (.s "Furniture")])
      = .ok (some ("("
          ++ (joinParts .or [("category = ?", [Scalar.s "Electronics"]),
              ("category = ?", [Scalar.s "Furniture"])]).1 ++ ")",
          (joinParts .or [("category = ?", [Scalar.s "Electronics"]),
              ("category = ?", [Scalar.s "Furniture"])]).2)) :=
  compile_parenthesizes_mixed_combinators.1 .and .or
    [.rule "category" .eq (.s "Electronics"), .rule "category" .eq (.s "Furniture")]
    ("category = ?", [Scalar.s "Electronics"]) [("category = ?", [Scalar.s "Furniture"])]
    (by decide) rfl

/-- C4: for every rule whose operator is `in`/`notIn` with a literal list
value: the empty list is rejected with `CompileError.emptyListOperand`
(never a vacuous condition), and a list of n elements emits an IN clause
containing exactly n placeholders, one per list element. -/
theorem compile_in_list_placeholders :
    (∀ (md : Metadata) (tb : String) (fl : List String) (f : String) (c : Comb)
        (n : Bool) (op : Operator),
        fieldsOf md tb = some fl → f ∈ fl → (op = .inOp ∨ op = .notInOp) →
        compile md tb c n [.ruleList f op []] = .error .emptyListOperand)
    ∧ (∀ (pc : Comb) (f : String) (op : Operator) (vs : List Scalar),
        (op = .inOp ∨ op = .notInOp) → vs ≠ [] →
        compileNode pc (.ruleList f op vs) =
          .ok (some (f ++ " " ++ inKw op ++ " (" ++ phList vs.length ++ ")", vs)))
    ∧ (∀ n, countQ (phList n) = n) := by
  refine ⟨?_, ?_, phList_count⟩
  · intro md tb fl f c n op hfl hmem hop
    rcases hop with h1 | h1 <;> subst h1 <;>
      simp [compile, hfl, checkNodes, checkNode, hmem, compileNodes, compileNode]
  · intro pc f op vs hop hvs
    rcases hop with h1 | h1 <;> subst h1 <;>
      cases vs with
      | nil => exact absurd rfl hvs
      | cons v0 rest => simp [compileNode]

theorem c4_witness :
    compile mdEx "products" .and false [.ruleList "category" .inOp []]
        = .error .emptyListOperand
    ∧ compileNode .and (.ruleList "category" .inOp
          [Scalar.s "Electronics", Scalar.s "Furniture", Scalar.s "Appliances"])
        = .ok (some ("category" ++ " " ++ inKw .inOp ++ " (" ++ phList 3 ++ ")",
            [Scalar.s "Electronics", Scalar.s "Furniture", Scalar.s "Appliances"])) :=
  ⟨compile_in_list_placeholders.1 mdEx "products" _ "category" .and false .inOp
      rfl (by decide) (Or.inl rfl),
   compile_in_list_placeholders.2.1 .and "category" .inOp
      [Scalar.s "Electronics", Scalar.s "Furniture", Scalar.s "Appliances"]
      (Or.inl rfl) (by simp)⟩

/-- C5: for every RuleGroup tree containing a rule whose field does not
exist in the field metadata of the given table, `compile` returns
`CompileError.unknownField`, and the request handler surfaces that error
for every possible gateway — the Query Execution Gateway is never invoked
and no part of the query is executed. -/
theorem compile_unknown_field_rejected (md : Metadata) (tb : String) (fl : List String)
    (c : Comb) (n : Bool) (ch : List RuleNode)
    (h1 : fieldsOf md tb = some fl) (h2 : hasUnknownNodes fl ch = true) :
    compile md tb c n ch = .error .unknownField
    ∧ ∀ gw, executeRequest gw md tb c n ch = .failure .unknownField := by
  have hck := hasUnknown_check_error md fl ch h2
  constructor
  · simp only [compile, h1, hck]
  · intro gw
    simp only [executeRequest, compile, h1, hck]

theorem c5_witness :
    compile mdEx "products" .and false [.rule "nosuch" .eq (.s "x")]
        = .error .unknownField
    ∧ ∀ gw, executeRequest gw mdEx "products" .and false [.rule "nosuch" .eq (.s "x")]
        = .failure .unknownField :=
  compile_unknown_field_rejected mdEx "products"
    ["product_id", "name", "category", "price"] .and false
    [.rule "nosuch" .eq (.s "x")] rfl (by decide)

/-- C6: a RuleGroup with zero children compiles standalone to the boolean
literal `true` with no parameters (a constraint satisfied by every row:
its denotation is `true` for every row predicate), and inserting an empty
group anywhere into the child list of a parent group yields a compiled
query identical to the one without it — an empty group contributes no
constraint to its siblings, so the result set is unchanged. -/
theorem compile_empty_group_tautology (md : Metadata) (tb : String) (fl : List String)
    (c : Comb) (n : Bool) (h1 : fieldsOf md tb = some fl) :
    compile md tb c n [] = .ok ("true", [])
    ∧ (∀ evR : RuleNode → Bool, satGroup evR c n [] = true)
    ∧ (∀ (pc : Comb) (pn : Bool) (l1 l2 : List RuleNode) (c2 : Comb) (n2 : Bool),
        compile md tb pc pn (l1 ++ .group c2 n2 [] :: l2)
          = compile md tb pc pn (l1 ++ l2)) := by
  refine ⟨?_, fun evR => rfl, ?_⟩
  · simp [compile, h1, checkNodes, compileNodes, renderGroup]
  · intro pc pn l1 l2 c2 n2
    simp only [compile, h1, checkNodes_elim_empty, compileNodes_elim_empty]

theorem c6_witness :
    compile mdEx "products" .and false [] = .ok ("true", [])
    ∧ (∀ evR : RuleNode → Bool, satGroup evR .and false [] = true)
    ∧ (∀ (pc : Comb) (pn : Bool) (l1 l2 : List RuleNode) (c2 : Comb) (n2 : Bool),
        compile mdEx "products" pc pn (l1 ++ .group c2 n2 [] :: l2)
          = compile mdEx "products" pc pn (l1 ++ l2)) :=
  compile_empty_group_tautology mdEx "products"
    ["product_id", "name", "category", "price"] .and false rfl

/-- C7: for every rule whose operator is `between`, `compile` succeeds
exactly when two scalar values are supplied (emitting `field BETWEEN ? AND
?`); any other arity of the value list is rejected with
`CompileError.badOperandArity`, both at the rule level and through the
top-level `compile`. -/
theorem compile_between_requires_two :
    (∀ (pc : Comb) (f : String) (vs : List Scalar), vs.length = 2 →
        compileNode pc (.ruleList f .between vs) =
          .ok (some (f ++ " BETWEEN ? AND ?", vs)))
    ∧ (∀ (pc : Comb) (f : String) (vs : List Scalar), vs.length ≠ 2 →
        compileNode pc (.ruleList f .between vs) = .error .badOperandArity)
    ∧ (∀ (md : Metadata) (tb : String) (fl : List String) (f : String) (c : Comb)
        (n : Bool) (vs : List Scalar),
        fieldsOf md tb = some fl → f ∈ fl → vs.length ≠ 2 →
        compile md tb c n [.ruleList f .between vs] = .error .badOperandArity) := by
  have herr : ∀ (pc : Comb) (f : String) (vs : List Scalar), vs.length ≠ 2 →
      compileNode pc (.ruleList f .between vs) = .error .badOperandArity := by
    intro pc f vs hlen
    cases vs with
    | nil => rfl
    | cons a t =>
        cases t with
        | nil => rfl
        | cons b t2 =>
            cases t2 with
            | nil => exact absurd rfl hlen
            | cons c3 t3 => rfl
  refine ⟨?_, herr, ?_⟩
  · intro pc f vs hlen
    cases vs with
    | nil => simp only [List.length_nil] at hlen; omega
    | cons a t =>
        cases t with
        | nil => simp only [List.length_cons, List.length_nil] at hlen; omega
        | cons b t2 =>
            cases t2 with
            | nil => rfl
            | cons c3 t3 =>
                simp only [List.length_cons] at hlen
                omega
  · intro md tb fl f c n vs hfl hmem hlen
    simp [compile, hfl, checkNodes, checkNode, hmem, compileNodes, herr c f vs hlen]

theorem c7_witness :
    compileNode .and (.ruleList "price" .between [Scalar.i 1, Scalar.i 500])
        = .ok (some ("price" ++ " BETWEEN ? AND ?", [Scalar.i 1, Scalar.i 500]))
    ∧ compileNode .and (.ruleList "price" .between [Scalar.i 1])
        = .error .badOperandArity
    ∧ compile mdEx "products" .and false [.ruleList "price" .between [Scalar.i 1]]
        = .error .badOperandArity :=
  ⟨compile_between_requires_two.1 .and "price" [Scalar.i 1, Scalar.i 500] rfl,
   compile_between_requires_two.2.1 .and "price" [Scalar.i 1] (by simp),
   compile_between_requires_two.2.2 mdEx "products" _ "price" .and false
     [Scalar.i 1] rfl (by decide) (by simp)⟩

/-- C8: `compile` is deterministic — two invocations on the same metadata,
table and tree return identical SQL text and identical parameter
sequences. -/
theorem compile_deterministic (md : Metadata) (tb : String) (c : Comb) (n : Bool)
    (ch : List RuleNode) (s1 s2 : String) (p1 p2 : List Scalar)
    (h1 : compile md tb c n ch = .ok (s1, p1))
    (h2 : compile md tb c n ch = .ok (s2, p2)) :
    s1 = s2 ∧ p1 = p2 := by
  rw [h1] at h2
  simpa using h2

theorem c8_witness :
    ("(category = ? OR category = ?) AND price < ?"
      = "(category = ? OR category = ?) AND price < ?")
    ∧ ([Scalar.s "Electronics", Scalar.s "Furniture", Scalar.i 500]
      = [Scalar.s "Electronics", Scalar.s "Furniture", Scalar.i 500]) :=
  compile_deterministic mdEx "products" .and false orAndEx _ _ _ _ rfl rfl

/-! ### Frontend operator mapping (from the TypeScript source) -/

/-- One operator entry as handed to the react-querybuilder UI: a
`{name, label}` pair. -/
structure OpEntry where
  name : String
  label : String
deriving DecidableEq, Repr

/-- Embedded from `updateFieldsForTable` in `QueryBuilderComponent`
(`src/frontend/src/services/api.ts` blob, lines 285-303): copy the field's
metadata operator list (empty when absent), push `"in"` and `"notIn"` when
not already included, then map each name to its labelled entry. -/
def updateFieldsForTableOps (fieldOps : Option (List String)) : List OpEntry :=
  let ops0 := match fieldOps with | some l => l | none => []
  let ops1 := if ops0.contains "in" then ops0 else ops0 ++ ["in"]
  let ops2 := if ops1.contains "notIn" then ops1 else ops1 ++ ["notIn"]
  ops2.map (fun op =>
    if op = "in" then { name := "in", label := "IN (subquery/list)" }
    else if op = "notIn" then { name := "notIn", label := "NOT IN (subquery/list)" }
    else { name := op, label := op })

/-- Embedded from the identical mapping in `InlineSubqueryEditor`
(`src/unnamed/part_000`, lines 44-56). -/
def inlineSubqueryEditorOps (fieldOps : Option (List String)) : List OpEntry :=
  let ops0 := match fieldOps with | some l => l | none => []
  let ops1 := if ops0.contains "in" then ops0 else ops0 ++ ["in"]
  let ops2 := if ops1.contains "notIn" then ops1 else ops1 ++ ["notIn"]
  ops2.map (fun op =>
    if op = "in" then { name := "in", label := "IN (subquery/list)" }
    else if op = "notIn" then { name := "notIn", label := "NOT IN (subquery/list)" }
    else { name := op, label := op })

/-- The field's raw metadata operator list ([] when absent), the starting
point of both mappings. -/
def opsBase (fieldOps : Option (List String)) : List String :=
  match fieldOps with | some l => l | none => []

/-- The base list with "in" appended when missing (first push of both
mappings). -/
def opsWithIn (fieldOps : Option (List String)) : List String :=
  if (opsBase fieldOps).contains "in" then opsBase fieldOps
  else opsBase fieldOps ++ ["in"]

/-- The appended name list both mappings label: base plus "in"/"notIn"
when missing. -/
def opsAppended (fieldOps : Option (List String)) : List String :=
  if (opsWithIn fieldOps).contains "notIn" then opsWithIn fieldOps
  else opsWithIn fieldOps ++ ["notIn"]

theorem updateFieldsForTableOps_names (fieldOps : Option (List String)) :
    (updateFieldsForTableOps fieldOps).map OpEntry.name = opsAppended fieldOps := by
  simp only [updateFieldsForTableOps, opsAppended, opsWithIn, opsBase, List.map_map]
  refine (List.map_congr_left ?_).trans (List.map_id _)
  intro op _
  simp only [Function.comp]
  by_cases h1 : op = "in"
  · subst h1; rfl
  · by_cases h2 : op = "notIn"
    · subst h2; rfl
    · simp [h1, h2]

theorem inlineSubqueryEditorOps_names (fieldOps : Option (List String)) :
    (inlineSubqueryEditorOps fieldOps).map OpEntry.name = opsAppended fieldOps := by
  simp only [inlineSubqueryEditorOps, opsAppended, opsWithIn, opsBase, List.map_map]
  refine (List.map_congr_left ?_).trans (List.map_id _)
  intro op _
  simp only [Function.comp]
  by_cases h1 : op = "in"
  · subst h1; rfl
  · by_cases h2 : op = "notIn"
    · subst h2; rfl
    · simp [h1, h2]

theorem mem_opsWithIn_in (fieldOps : Option (List String)) :
    "in" ∈ opsWithIn fieldOps := by
  simp only [opsWithIn]
  split
  · next h1 => simpa [List.contains] using (List.elem_iff).1 h1
  · exact List.mem_append_right _ (List.mem_singleton.2 rfl)

theorem mem_opsWithIn_of_base (fieldOps : Option (List String)) (op : String)
    (h : op ∈ opsBase fieldOps) : op ∈ opsWithIn fieldOps := by
  simp only [opsWithIn]
  split
  · exact h
  · exact List.mem_append_left _ h

theorem mem_opsAppended_of_withIn (fieldOps : Option (List String)) (op : String)
    (h : op ∈ opsWithIn fieldOps) : op ∈ opsAppended fieldOps := by
  simp only [opsAppended]
  split
  · exact h
  · exact List.mem_append_left _ h

theorem mem_opsAppended_in (fieldOps : Option (List String)) :
    "in" ∈ opsAppended fieldOps :=
  mem_opsAppended_of_withIn fieldOps "in" (mem_opsWithIn_in fieldOps)

theorem mem_opsAppended_notIn (fieldOps : Option (List String)) :
    "notIn" ∈ opsAppended fieldOps := by
  simp only [opsAppended]
  split
  · next h2 => simpa [List.contains] using (List.elem_iff).1 h2
  · exact List.mem_append_right _ (List.mem_singleton.2 rfl)

theorem mem_opsAppended_of_base (fieldOps : Option (List String)) (op : String)
    (h : op ∈ opsBase fieldOps) : op ∈ opsAppended fieldOps :=
  mem_opsAppended_of_withIn fieldOps op (mem_opsWithIn_of_base fieldOps op h)

/-- C10: for every field of the selected table, the operator list the UI
presents contains `in` and `notIn` — both `QueryBuilderComponent`'s field
mapping and `InlineSubqueryEditor`'s field mapping append them whenever the
field's metadata operator list omits them — and the offered operator set
contains the metadata's per-field operator set; it is a strict superset
(an offered name outside the metadata list exists) whenever the metadata
list omits `in`. -/
theorem ui_operator_lists_contain_in_notIn (fieldOps : Option (List String)) :
    "in" ∈ (updateFieldsForTableOps fieldOps).map OpEntry.name
    ∧ "notIn" ∈ (updateFieldsForTableOps fieldOps).map OpEntry.name
    ∧ "in" ∈ (inlineSubqueryEditorOps fieldOps).map OpEntry.name
    ∧ "notIn" ∈ (inlineSubqueryEditorOps fieldOps).map OpEntry.name
    ∧ (∀ op, op ∈ opsBase fieldOps →
        op ∈ (updateFieldsForTableOps fieldOps).map OpEntry.name)
    ∧ (∀ op, op ∈ opsBase fieldOps →
        op ∈ (inlineSubqueryEditorOps fieldOps).map OpEntry.name)
    ∧ ("in" ∉ opsBase fieldOps →
        ∃ op, op ∈ (updateFieldsForTableOps fieldOps).map OpEntry.name
          ∧ op ∉ opsBase fieldOps) := by
  rw [updateFieldsForTableOps_names, inlineSubqueryEditorOps_names]
  refine ⟨mem_opsAppended_in _, mem_opsAppended_notIn _, mem_opsAppended_in _,
    mem_opsAppended_notIn _, ?_, ?_, ?_⟩
  · intro op h; exact mem_opsAppended_of_base _ op h
  · intro op h; exact mem_opsAppended_of_base _ op h
  · intro hnot
    exact ⟨"in", mem_opsAppended_in _, hnot⟩

theorem c10_witness :
    "in" ∈ (updateFieldsForTableOps (some ["=", "!=", "<"])).map OpEntry.name
    ∧ ("=" ∈ (updateFieldsForTableOps (some ["=", "!=", "<"])).map OpEntry.name)
    ∧ (∃ op, op ∈ (updateFieldsForTableOps (some ["=", "!=", "<"])).map OpEntry.name
        ∧ op ∉ opsBase (some ["=", "!=", "<"])) :=
  ⟨(ui_operator_lists_contain_in_notIn (some ["=", "!=", "<"])).1,
   (ui_operator_lists_contain_in_notIn (some ["=", "!=", "<"])).2.2.2.2.1 "=" (by decide),
   (ui_operator_lists_contain_in_notIn (some ["=", "!=", "<"])).2.2.2.2.2.2 (by decide)⟩

/-! ### JSON values, serialization and parsing

`handleSaveQuery` stores `query_json = JSON.stringify(query)` and
`onLoadQuery` restores the tree with `JSON.parse(q.query_json)`
(`src/frontend/src/services/api.ts` blob).  The JS builtins are embedded
here as a compact renderer and a parser over the JSON value type.  The
model covers the values the builder produces: strings (escaping `"` and
`\`; control characters are carried verbatim), integers, booleans, null,
arrays and objects. -/

/-- A JSON value.  Numbers are modelled as integers, the numeric values
the query builder produces. -/
inductive Json where
  | null
  | bool (b : Bool)
  | num (n : Int)
  | str (s : String)
  | arr (xs : List Json)
  | obj (kvs : List (String × Json))

/-- The character for a decimal digit (0-9). -/
def digitChar (n : Nat) : Char :=
  match n with
  | 0 => '0' | 1 => '1' | 2 => '2' | 3 => '3' | 4 => '4'
  | 5 => '5' | 6 => '6' | 7 => '7' | 8 => '8' | _ => '9'

/-- The value of a decimal digit character. -/
def digitVal (c : Char) : Nat :=
  match c with
  | '0' => 0 | '1' => 1 | '2' => 2 | '3' => 3 | '4' => 4
  | '5' => 5 | '6' => 6 | '7' => 7 | '8' => 8 | _ => 9

/-- Is the character a decimal digit? -/
def myIsDigit (c : Char) : Bool :=
  c = '0' || c = '1' || c = '2' || c = '3' || c = '4' ||
  c = '5' || c = '6' || c = '7' || c = '8' || c = '9'

/-- Decimal digit characters of a natural number, most significant
first. -/
def natDigits (n : Nat) : List Char :=
  if n < 10 then [digitChar n]
  else natDigits (n / 10) ++ [digitChar (n % 10)]
termination_by n
decreasing_by exact Nat.div_lt_self (by omega) (by omega)

/-- Decimal character rendering of an integer (minus sign for
negatives). -/
def intChars (i : Int) : List Char :=
  if i < 0 then '-' :: natDigits i.natAbs else natDigits i.toNat

/-- JSON string escaping of one character: `"` and `\` get a backslash,
anything else is carried verbatim. -/
def escChar (c : Char) : List Char :=
  if c = '"' ∨ c = '\\' then ['\\', c] else [c]

/-- JSON string escaping of a character sequence. -/
def escList : List Char → List Char
  | [] => []
  | c :: cs => escChar c ++ escList cs

mutual

/-- Compact JSON rendering (the embedding of `JSON.stringify`): no
whitespace, object members in order. -/
def jrender : Json → List Char
  | .null => "null".data
  | .bool true => "true".data
  | .bool false => "false".data
  | .num i => intChars i
  | .str s => '"' :: escList s.data ++ ['"']
  | .arr xs => '[' :: jrenderItems xs ++ [']']
  | .obj kvs => '\x7b' :: jrenderMembers kvs ++ ['\x7d']

/-- Comma-separated rendering of array elements. -/
def jrenderItems : List Json → List Char
  | [] => []
  | [x] => jrender x
  | x :: y :: ys => jrender x ++ ',' :: jrenderItems (y :: ys)

/-- Comma-separated rendering of object members (`"key":value`). -/
def jrenderMembers : List (String × Json) → List Char
  | [] => []
  | [(k, v)] => '"' :: escList k.data ++ '"' :: ':' :: jrender v
  | (k, v) :: kv2 :: kvs =>
      '"' :: escList k.data ++ '"' :: ':' :: jrender v ++ ',' :: jrenderMembers (kv2 :: kvs)

end

/-- Parse the body of a JSON string literal (after the opening quote) up
to the closing quote, unescaping `\c` to `c`. -/
def parseStrAux : List Char → Option (List Char × List Char)
  | [] => none
  | '"' :: r => some ([], r)
  | '\\' :: c :: r =>
      match parseStrAux r with
      | some (s, r2) => some (c :: s, r2)
      | none => none
  | c :: r =>
      match parseStrAux r with
      | some (s, r2) => some (c :: s, r2)
      | none => none

/-- Greedy decimal digit accumulation. -/
def parseNatAux : List Char → Nat → Nat × List Char
  | [], acc => (acc, [])
  | c :: r, acc =>
      if myIsDigit c then parseNatAux r (10 * acc + digitVal c) else (acc, c :: r)

/-- Parse a natural number (at least one digit required). -/
def parseNat : List Char → Option (Nat × List Char)
  | [] => none
  | c :: r => if myIsDigit c then some (parseNatAux (c :: r) 0) else none

mutual

/-- Fueled JSON parser (the embedding of `JSON.parse`, on the compact
grammar the renderer emits): keywords, string literals, integers, arrays
and objects.  Fuel bounds the nesting recursion. -/
def parseJ : Nat → List Char → Option (Json × List Char)
  | 0, _ => none
  | fuel + 1, cs =>
      match cs with
      | 'n' :: 'u' :: 'l' :: 'l' :: r => some (.null, r)
      | 't' :: 'r' :: 'u' :: 'e' :: r => some (.bool true, r)
      | 'f' :: 'a' :: 'l' :: 's' :: 'e' :: r => some (.bool false, r)
      | '"' :: r =>
          match parseStrAux r with
          | some (s, r2) => some (.str (String.mk s), r2)
          | none => none
      | '[' :: r =>
          match r with
          | ']' :: r2 => some (.arr [], r2)
          | _ =>
              match parseItems fuel r with
              | some (xs, r2) => some (.arr xs, r2)
              | none => none
      | '\x7b' :: r =>
          match r with
          | '\x7d' :: r2 => some (.obj [], r2)
          | _ =>
              match parseMembers fuel r with
              | some (kvs, r2) => some (.obj kvs, r2)
              | none => none
      | '-' :: r =>
          match parseNat r with
          | some (n, r2) => some (.num (-(n : Int)), r2)
          | none => none
      | c :: r =>
          if myIsDigit c then
            match parseNat (c :: r) with
            | some (n, r2) => some (.num (n : Int), r2)
            | none => none
          else none
      | [] => none

/-- Parse one or more comma-separated array elements up to the closing
bracket. -/
def parseItems : Nat → List Char → Option (List Json × List Char)
  | 0, _ => none
  | fuel + 1, cs =>
      match parseJ fuel cs with
      | none => none
      | some (x, r) =>
          match r with
          | ',' :: r2 =>
              match parseItems fuel r2 with
              | some (xs, r3) => some (x :: xs, r3)
              | none => none
          | ']' :: r2 => some ([x], r2)
          | _ => none

/-- Parse one or more comma-separated object members up to the closing
brace. -/
def parseMembers : Nat → List Char → Option (List (String × Json) × List Char)
  | 0, _ => none
  | fuel + 1, cs =>
      match cs with
      | '"' :: r =>
          match parseStrAux r with
          | none => none
          | some (k, r1) =>
              match r1 with
              | ':' :: r2 =>
                  match parseJ fuel r2 with
                  | none => none
                  | some (v, r3) =>
                      match r3 with
                      | ',' :: r4 =>
                          match parseMembers fuel r4 with
                          | some (kvs, r5) => some ((String.mk k, v) :: kvs, r5)
                          | none => none
                      | '\x7d' :: r4 => some ([(String.mk k, v)], r4)
                      | _ => none
              | _ => none
      | _ => none

end

mutual

/-- Fuel sufficient for `parseJ` to parse a rendered value. -/
def jfuel : Json → Nat
  | .arr [] => 1
  | .arr (x :: xs) => 1 + itemsFuel (x :: xs)
  | .obj [] => 1
  | .obj (kv :: kvs) => 1 + memFuel (kv :: kvs)
  | _ => 1

/-- Fuel sufficient for `parseItems` on rendered array elements. -/
def itemsFuel : List Json → Nat
  | [] => 0
  | x :: xs => 1 + jfuel x + itemsFuel xs

/-- Fuel sufficient for `parseMembers` on rendered object members. -/
def memFuel : List (String × Json) → Nat
  | [] => 0
  | (_, v) :: kvs => 1 + jfuel v + memFuel kvs

end

/-- The embedding of `JSON.stringify`. -/
def jstringify (j : Json) : String := String.mk (jrender j)

/-- The embedding of `JSON.parse`: parse with fuel bounded by the input
length and require full consumption. -/
def jparse (s : String) : Option Json :=
  match parseJ (s.data.length + 1) s.data with
  | some (j, []) => some j
  | _ => none

/-! ### Round-trip lemmas for the JSON embedding -/

theorem digitVal_digitChar : ∀ d, d < 10 → digitVal (digitChar d) = d := by decide

theorem myIsDigit_digitChar : ∀ d, d < 10 → myIsDigit (digitChar d) = true := by decide

theorem natDigits_head (n : Nat) :
    ∃ d ds, natDigits n = d :: ds ∧ myIsDigit d = true := by
  rw [natDigits]
  split
  · next h => exact ⟨digitChar n, [], rfl, myIsDigit_digitChar n h⟩
  · next h =>
      obtain ⟨d, ds, hd, hdig⟩ := natDigits_head (n / 10)
      exact ⟨d, ds ++ [digitChar (n % 10)], by rw [hd]; rfl, hdig⟩
termination_by n
decreasing_by exact Nat.div_lt_self (by omega) (by omega)

/-- The first character of the remaining input is not a digit (so greedy
number parsing stops there). -/
def noDigitStart : List Char → Prop
  | [] => True
  | c :: _ => myIsDigit c = false

theorem parseNatAux_stop (rest : List Char) (acc : Nat) (h : noDigitStart rest) :
    parseNatAux rest acc = (acc, rest) := by
  cases rest with
  | nil => rfl
  | cons c r =>
      simp only [noDigitStart] at h
      simp [parseNatAux, h]

theorem parseNatAux_digits (n : Nat) :
    ∀ (acc : Nat) (rest : List Char),
      parseNatAux (natDigits n ++ rest) acc
        = parseNatAux rest (acc * 10 ^ (natDigits n).length + n) := by
  intro acc rest
  rw [natDigits]
  split
  · next h =>
      simp only [List.singleton_append, List.length_cons, List.length_nil]
      simp only [parseNatAux, myIsDigit_digitChar n h, if_true, digitVal_digitChar n h]
      congr 1
      simp [pow_one]
      omega
  · next h =>
      rw [List.append_assoc, List.singleton_append]
      rw [parseNatAux_digits (n / 10) acc (digitChar (n % 10) :: rest)]
      have hm : n % 10 < 10 := Nat.mod_lt _ (by omega)
      simp only [parseNatAux, myIsDigit_digitChar _ hm, if_true, digitVal_digitChar _ hm]
      rw [List.length_append, List.length_cons, List.length_nil]
      congr 1
      rw [pow_succ, ← mul_assoc]
      have hdm := Nat.div_add_mod n 10
      generalize acc * 10 ^ (natDigits (n / 10)).length = a
      omega
termination_by n
decreasing_by exact Nat.div_lt_self (by omega) (by omega)

theorem parseNat_digits (n : Nat) (rest : List Char) (h : noDigitStart rest) :
    parseNat (natDigits n ++ rest) = some (n, rest) := by
  obtain ⟨d, ds, hd, hdig⟩ := natDigits_head n
  rw [hd, List.cons_append]
  simp only [parseNat, hdig, if_true]
  rw [← List.cons_append, ← hd, parseNatAux_digits n 0 rest]
  rw [parseNatAux_stop rest _ h]
  simp

/-- The character shapes that may legitimately follow a rendered JSON
value inside a larger rendering: nothing, a comma, or a closing bracket
or brace. -/
def goodTail : List Char → Prop
  | [] => True
  | c :: _ => c = ',' ∨ c = ']' ∨ c = '\x7d'

theorem goodTail_noDigit (rest : List Char) (h : goodTail rest) : noDigitStart rest := by
  cases rest with
  | nil => trivial
  | cons c r =>
      simp only [goodTail] at h
      simp only [noDigitStart]
      rcases h with rfl | rfl | rfl <;> rfl

theorem parseStrAux_rt : ∀ (cs : List Char) (rest : List Char),
    parseStrAux (escList cs ++ '"' :: rest) = some (cs, rest)
  | [], rest => rfl
  | c :: cs, rest => by
      have ih := parseStrAux_rt cs rest
      by_cases hq : c = '"' ∨ c = '\\'
      · simp only [escList, escChar, if_pos hq, List.cons_append, List.append_assoc,
          List.nil_append]
        simp only [parseStrAux, ih]
      · simp only [escList, escChar, if_neg hq, List.cons_append, List.nil_append]
        push_neg at hq
        obtain ⟨h1, h2⟩ := hq
        rw [parseStrAux.eq_def]
        split
        · next heq => exact absurd heq (by simp)
        · next heq =>
            rw [List.cons.injEq] at heq
            exact absurd heq.1 h1
        · next c2 r heq =>
            rw [List.cons.injEq] at heq
            exact absurd heq.1 h2
        · next c2 r hne1 hne2 hne3 heq =>
            rw [List.cons.injEq] at heq
            obtain ⟨hc2, hr⟩ := heq
            subst hc2
            rw [← hr, ih]

set_option maxHeartbeats 1000000 in
theorem parseJ_step_digit (f : Nat) (c : Char) (Y : List Char) (hdig : myIsDigit c = true) :
    parseJ (f + 1) (c :: Y)
      = match parseNat (c :: Y) with
        | some (n, r2) => some (Json.num (n : Int), r2)
        | none => none := by
  simp only [parseJ]
  split
  · next h => rw [List.cons.injEq] at h; obtain ⟨rfl, -⟩ := h; exact absurd hdig (by decide)
  · next h => rw [List.cons.injEq] at h; obtain ⟨rfl, -⟩ := h; exact absurd hdig (by decide)
  · next h => rw [List.cons.injEq] at h; obtain ⟨rfl, -⟩ := h; exact absurd hdig (by decide)
  · next h => rw [List.cons.injEq] at h; obtain ⟨rfl, -⟩ := h; exact absurd hdig (by decide)
  · next h => rw [List.cons.injEq] at h; obtain ⟨rfl, -⟩ := h; exact absurd hdig (by decide)
  · next h => rw [List.cons.injEq] at h; obtain ⟨rfl, -⟩ := h; exact absurd hdig (by decide)
  · next h => rw [List.cons.injEq] at h; obtain ⟨rfl, -⟩ := h; exact absurd hdig (by decide)
  · next c2 r h =>
      rw [List.cons.injEq] at h
      obtain ⟨rfl, rfl⟩ := h
      rw [if_pos hdig]
  · next h => exact absurd h (by simp)

set_option maxHeartbeats 1000000 in
theorem parseJ_step_array (f : Nat) (c : Char) (Y : List Char) (hc : c ≠ ']') :
    parseJ (f + 1) ('[' :: c :: Y)
      = match parseItems f (c :: Y) with
        | some (xs, r2) => some (Json.arr xs, r2)
        | none => none := by
  simp only [parseJ]
  split
  · next h => rw [List.cons.injEq] at h; exact absurd h.1 hc
  · rfl

set_option maxHeartbeats 1000000 in
theorem parseJ_step_obj (f : Nat) (c : Char) (Y : List Char) (hc : c ≠ '\x7d') :
    parseJ (f + 1) ('\x7b' :: c :: Y)
      = match parseMembers f (c :: Y) with
        | some (kvs, r2) => some (Json.obj kvs, r2)
        | none => none := by
  simp only [parseJ]
  split
  · next h => rw [List.cons.injEq] at h; exact absurd h.1 hc
  · rfl

theorem string_mk_data (s : String) : String.mk s.data = s := by
  cases s
  rfl

theorem jrender_head_ok (j : Json) :
    ∃ c cs2, jrender j = c :: cs2 ∧ c ≠ ']' ∧ c ≠ '\x7d' := by
  cases j with
  | null => exact ⟨'n', _, rfl, by decide, by decide⟩
  | bool b =>
      cases b
      · exact ⟨'f', _, rfl, by decide, by decide⟩
      · exact ⟨'t', _, rfl, by decide, by decide⟩
  | num i =>
      by_cases hi : i < 0
      · exact ⟨'-', natDigits i.natAbs, by simp [jrender, intChars, hi], by decide, by decide⟩
      · obtain ⟨d, ds, hd, hdig⟩ := natDigits_head i.toNat
        refine ⟨d, ds, by simp [jrender, intChars, hi, hd], ?_, ?_⟩
        · intro hc; subst hc; exact absurd hdig (by decide)
        · intro hc; subst hc; exact absurd hdig (by decide)
  | str s => exact ⟨'"', _, rfl, by decide, by decide⟩
  | arr xs => exact ⟨'[', _, rfl, by decide, by decide⟩
  | obj kvs => exact ⟨'\x7b', _, rfl, by decide, by decide⟩

set_option maxHeartbeats 2000000 in
mutual

theorem parseJ_rt : ∀ (j : Json) (f : Nat), jfuel j ≤ f → ∀ rest, goodTail rest →
    parseJ f (jrender j ++ rest) = some (j, rest)
  | .null, f, hf, rest, hrest => by
      simp only [jfuel] at hf
      obtain ⟨f2, rfl⟩ := Nat.exists_eq_succ_of_ne_zero (show f ≠ 0 by omega)
      rfl
  | .bool true, f, hf, rest, hrest => by
      simp only [jfuel] at hf
      obtain ⟨f2, rfl⟩ := Nat.exists_eq_succ_of_ne_zero (show f ≠ 0 by omega)
      rfl
  | .bool false, f, hf, rest, hrest => by
      simp only [jfuel] at hf
      obtain ⟨f2, rfl⟩ := Nat.exists_eq_succ_of_ne_zero (show f ≠ 0 by omega)
      rfl
  | .num i, f, hf, rest, hrest => by
      simp only [jfuel] at hf
      obtain ⟨f2, rfl⟩ := Nat.exists_eq_succ_of_ne_zero (show f ≠ 0 by omega)
      by_cases hi : i < 0
      · have hj : jrender (.num i) = '-' :: natDigits i.natAbs := by
          simp [jrender, intChars, hi]
        rw [hj, List.cons_append]
        simp only [parseJ]
        rw [parseNat_digits _ _ (goodTail_noDigit rest hrest)]
        have hni : -((i.natAbs : Nat) : Int) = i := by omega
        exact congrArg (fun z => some (Json.num z, rest)) hni
      · obtain ⟨d, ds, hd, hdig⟩ := natDigits_head i.toNat
        have hj : jrender (.num i) = natDigits i.toNat := by
          simp [jrender, intChars, hi]
        rw [hj, hd, List.cons_append]
        rw [parseJ_step_digit f2 d (ds ++ rest) hdig]
        rw [← List.cons_append, ← hd, parseNat_digits _ _ (goodTail_noDigit rest hrest)]
        have hni : ((i.toNat : Nat) : Int) = i := by omega
        exact congrArg (fun z => some (Json.num z, rest)) hni
  | .str s, f, hf, rest, hrest => by
      simp only [jfuel] at hf
      obtain ⟨f2, rfl⟩ := Nat.exists_eq_succ_of_ne_zero (show f ≠ 0 by omega)
      have hj : jrender (.str s) ++ rest = '"' :: (escList s.data ++ '"' :: rest) := by
        simp [jrender, List.cons_append, List.append_assoc]
      rw [hj]
      simp only [parseJ]
      rw [parseStrAux_rt s.data rest]
  | .arr [], f, hf, rest, hrest => by
      simp only [jfuel] at hf
      obtain ⟨f2, rfl⟩ := Nat.exists_eq_succ_of_ne_zero (show f ≠ 0 by omega)
      rfl
  | .arr (x :: xs), f, hf, rest, hrest => by
      simp only [jfuel] at hf
      obtain ⟨f2, rfl⟩ := Nat.exists_eq_succ_of_ne_zero (show f ≠ 0 by omega)
      obtain ⟨c, cs2, hx, hc1, hc2⟩ := jrender_head_ok x
      have hitems : ∃ Z, jrenderItems (x :: xs) = c :: Z := by
        cases xs with
        | nil => exact ⟨cs2, by simp [jrenderItems, hx]⟩
        | cons y ys =>
            exact ⟨cs2 ++ ',' :: jrenderItems (y :: ys), by simp [jrenderItems, hx]⟩
      obtain ⟨Z, hZ⟩ := hitems
      have hra : jrender (.arr (x :: xs)) ++ rest = '[' :: c :: (Z ++ ']' :: rest) := by
        simp [jrender, hZ, List.cons_append, List.append_assoc]
      rw [hra, parseJ_step_array f2 c _ hc1]
      rw [show c :: (Z ++ ']' :: rest) = jrenderItems (x :: xs) ++ ']' :: rest by
        rw [hZ]; simp]
      rw [parseItems_rt (x :: xs) f2 (by simp) (by simp only [itemsFuel] at hf ⊢; omega)
        rest hrest]
  | .obj [], f, hf, rest, hrest => by
      simp only [jfuel] at hf
      obtain ⟨f2, rfl⟩ := Nat.exists_eq_succ_of_ne_zero (show f ≠ 0 by omega)
      rfl
  | .obj ((k, v) :: kvs), f, hf, rest, hrest => by
      simp only [jfuel] at hf
      obtain ⟨f2, rfl⟩ := Nat.exists_eq_succ_of_ne_zero (show f ≠ 0 by omega)
      have hmem : ∃ Z, jrenderMembers ((k, v) :: kvs) = '"' :: Z := by
        cases kvs with
        | nil => exact ⟨escList k.data ++ '"' :: ':' :: jrender v, by simp [jrenderMembers]⟩
        | cons kv2 kvs2 =>
            exact ⟨escList k.data ++ '"' :: ':' :: jrender v
              ++ ',' :: jrenderMembers (kv2 :: kvs2), by simp [jrenderMembers]⟩
      obtain ⟨Z, hZ⟩ := hmem
      have hro : jrender (.obj ((k, v) :: kvs)) ++ rest
          = '\x7b' :: '"' :: (Z ++ '\x7d' :: rest) := by
        simp [jrender, hZ, List.cons_append, List.append_assoc]
      rw [hro, parseJ_step_obj f2 '"' _ (by decide)]
      rw [show '"' :: (Z ++ '\x7d' :: rest) = jrenderMembers ((k, v) :: kvs) ++ '\x7d' :: rest by
        rw [hZ]; simp]
      rw [parseMembers_rt ((k, v) :: kvs) f2 (by simp)
        (by simp only [memFuel] at hf ⊢; omega) rest hrest]

theorem parseItems_rt : ∀ (xs : List Json) (f : Nat), xs ≠ [] → itemsFuel xs ≤ f →
    ∀ rest, goodTail rest →
    parseItems f (jrenderItems xs ++ ']' :: rest) = some (xs, rest)
  | [], _, hne, _, _, _ => absurd rfl hne
  | x :: xs, f, hne, hf, rest, hrest => by
      simp only [itemsFuel] at hf
      obtain ⟨f2, rfl⟩ := Nat.exists_eq_succ_of_ne_zero (show f ≠ 0 by omega)
      cases xs with
      | nil =>
          have he : jrenderItems [x] ++ ']' :: rest = jrender x ++ ']' :: rest := by
            simp [jrenderItems]
          rw [he]
          have hx := parseJ_rt x f2 (by omega) (']' :: rest) (Or.inr (Or.inl rfl))
          simp only [parseItems, hx]
      | cons y ys =>
          have he : jrenderItems (x :: y :: ys) ++ ']' :: rest
              = jrender x ++ (',' :: (jrenderItems (y :: ys) ++ ']' :: rest)) := by
            simp [jrenderItems, List.cons_append, List.append_assoc]
          rw [he]
          have hx := parseJ_rt x f2 (by omega)
            (',' :: (jrenderItems (y :: ys) ++ ']' :: rest)) (Or.inl rfl)
          simp only [parseItems, hx]
          rw [parseItems_rt (y :: ys) f2 (by simp) (by simp only [itemsFuel] at hf ⊢; omega)
            rest hrest]

theorem parseMembers_rt : ∀ (kvs : List (String × Json)) (f : Nat), kvs ≠ [] →
    memFuel kvs ≤ f → ∀ rest, goodTail rest →
    parseMembers f (jrenderMembers kvs ++ '\x7d' :: rest) = some (kvs, rest)
  | [], _, hne, _, _, _ => absurd rfl hne
  | (k, v) :: kvs, f, hne, hf, rest, hrest => by
      simp only [memFuel] at hf
      obtain ⟨f2, rfl⟩ := Nat.exists_eq_succ_of_ne_zero (show f ≠ 0 by omega)
      cases kvs with
      | nil =>
          have he : jrenderMembers [(k, v)] ++ '\x7d' :: rest
              = '"' :: (escList k.data ++ '"' :: (':' :: (jrender v ++ '\x7d' :: rest))) := by
            simp [jrenderMembers, List.cons_append, List.append_assoc]
          rw [he]
          have hv := parseJ_rt v f2 (by omega) ('\x7d' :: rest) (Or.inr (Or.inr rfl))
          simp only [parseMembers, parseStrAux_rt k.data, hv]
      | cons kv2 kvs2 =>
          have he : jrenderMembers ((k, v) :: kv2 :: kvs2) ++ '\x7d' :: rest
              = '"' :: (escList k.data ++ '"' :: (':' :: (jrender v
                  ++ ',' :: (jrenderMembers (kv2 :: kvs2) ++ '\x7d' :: rest)))) := by
            simp [jrenderMembers, List.cons_append, List.append_assoc]
          rw [he]
          have hv := parseJ_rt v f2 (by omega)
            (',' :: (jrenderMembers (kv2 :: kvs2) ++ '\x7d' :: rest)) (Or.inl rfl)
          simp only [parseMembers, parseStrAux_rt k.data, hv]
          rw [parseMembers_rt (kv2 :: kvs2) f2 (by simp)
            (by simp only [memFuel] at hf ⊢; omega) rest hrest]

end

theorem natDigits_length_pos (n : Nat) : 1 ≤ (natDigits n).length := by
  obtain ⟨d, ds, hd, -⟩ := natDigits_head n
  rw [hd]
  simp

mutual

theorem jfuel_le : ∀ j : Json, jfuel j ≤ (jrender j).length
  | .null => by simp [jfuel, jrender]
  | .bool true => by simp [jfuel, jrender]
  | .bool false => by simp [jfuel, jrender]
  | .num i => by
      simp only [jfuel, jrender, intChars]
      split
      · have := natDigits_length_pos i.natAbs
        simp only [List.length_cons]
        omega
      · exact natDigits_length_pos i.toNat
  | .str s => by simp [jfuel, jrender]
  | .arr [] => by simp [jfuel, jrender, jrenderItems]
  | .arr (x :: xs) => by
      have h := itemsFuel_le (x :: xs) (by simp)
      simp only [jfuel, jrender, List.length_cons, List.length_append] at h ⊢
      omega
  | .obj [] => by simp [jfuel, jrender, jrenderMembers]
  | .obj (kv :: kvs) => by
      have h := memFuel_le (kv :: kvs) (by simp)
      simp only [jfuel, jrender, List.length_cons, List.length_append] at h ⊢
      omega

theorem itemsFuel_le : ∀ xs : List Json, xs ≠ [] →
    itemsFuel xs ≤ (jrenderItems xs).length + 1
  | [], hne => absurd rfl hne
  | [x], _ => by
      have h := jfuel_le x
      simp only [itemsFuel, jrenderItems] at h ⊢
      omega
  | x :: y :: ys, _ => by
      have h1 := jfuel_le x
      have h2 := itemsFuel_le (y :: ys) (by simp)
      simp only [itemsFuel, jrenderItems, List.length_append, List.length_cons] at h1 h2 ⊢
      omega

theorem memFuel_le : ∀ kvs : List (String × Json), kvs ≠ [] →
    memFuel kvs ≤ (jrenderMembers kvs).length + 1
  | [], hne => absurd rfl hne
  | [(k, v)], _ => by
      have h := jfuel_le v
      simp only [memFuel, jrenderMembers, List.length_append, List.length_cons] at h ⊢
      omega
  | (k, v) :: kv2 :: kvs, _ => by
      have h1 := jfuel_le v
      have h2 := memFuel_le (kv2 :: kvs) (by simp)
      simp only [memFuel, jrenderMembers, List.length_append, List.length_cons] at h1 h2 ⊢
      omega

end

/-- Parsing back a rendered JSON value recovers it exactly. -/
theorem jparse_jstringify (j : Json) : jparse (jstringify j) = some j := by
  have hf : jfuel j ≤ (jrender j).length + 1 := le_trans (jfuel_le j) (by omega)
  have h := parseJ_rt j ((jrender j).length + 1) hf [] trivial
  simp only [List.append_nil] at h
  simp only [jparse, jstringify]
  rw [h]

/-! ### The frontend rule tree and its save/load embedding -/

/-- The frontend's rule-tree type (`src/frontend/src/types/index.ts`):
`QueryRule` is `{field, operator, value}` with `value : any` (a JSON
value — a string, number, list, or nested subquery object), and
`QueryGroup` is `{combinator, rules, not?}` with the children in order and
the optional `not` flag. -/
inductive QNode where
  | rule (field : String) (operator : String) (value : Json)
  | group (combinator : String) (rules : List QNode) (notFlag : Option Bool)

mutual

/-- The JSON image of a frontend tree node — the runtime JS object that
`JSON.stringify` serializes in `handleSaveQuery`: rule objects with keys
`field`, `operator`, `value`; group objects with keys `combinator`,
`rules` and, when present, `not`. -/
def encodeNode : QNode → Json
  | .rule f op v => .obj [("field", .str f), ("operator", .str op), ("value", v)]
  | .group c rs nt =>
      .obj ([("combinator", .str c), ("rules", .arr (encodeList rs))]
        ++ (match nt with | some b => [("not", .bool b)] | none => []))

/-- JSON images of a sibling list, in order. -/
def encodeList : List QNode → List Json
  | [] => []
  | x :: xs => encodeNode x :: encodeList xs

end

mutual

theorem encodeNode_inj : ∀ t1 t2 : QNode, encodeNode t1 = encodeNode t2 → t1 = t2
  | .rule f1 o1 v1, .rule f2 o2 v2, h => by
      simp only [encodeNode, Json.obj.injEq, List.cons.injEq, Prod.mk.injEq,
        Json.str.injEq, true_and, and_true] at h
      obtain ⟨hf, ho, hv⟩ := h
      rw [hf, ho, hv]
  | .rule f1 o1 v1, .group c2 rs2 n2, h => by
      cases n2 <;> simp [encodeNode] at h
  | .group c1 rs1 n1, .rule f2 o2 v2, h => by
      cases n1 <;> simp [encodeNode] at h
  | .group c1 rs1 n1, .group c2 rs2 n2, h => by
      cases n1 <;> cases n2 <;>
        simp only [encodeNode, Json.obj.injEq, List.cons.injEq, Prod.mk.injEq,
          Json.str.injEq, Json.arr.injEq, Json.bool.injEq, List.append_nil,
          List.cons_append, List.nil_append, true_and, and_true] at h
      · obtain ⟨hc, hr⟩ := h
        rw [hc, encodeList_inj rs1 rs2 hr]
      · exact absurd h.2.2 (by simp)
      · exact absurd h.2.2 (by simp)
      · obtain ⟨hc, hr, hb⟩ := h
        rw [hc, encodeList_inj rs1 rs2 hr, hb]

theorem encodeList_inj : ∀ l1 l2 : List QNode, encodeList l1 = encodeList l2 → l1 = l2
  | [], [], _ => rfl
  | [], x :: xs, h => by simp [encodeList] at h
  | x :: xs, [], h => by simp [encodeList] at h
  | x :: xs, y :: ys, h => by
      simp only [encodeList, List.cons.injEq] at h
      obtain ⟨h1, h2⟩ := h
      rw [encodeNode_inj x y h1, encodeList_inj xs ys h2]

end

/-- Embedded from `handleSaveQuery` (`src/frontend/src/services/api.ts`
blob, lines 397-403): the saved record's `query_json` field is
`JSON.stringify(query)`. -/
def handleSaveQueryJson (t : QNode) : String := jstringify (encodeNode t)

/-- Embedded from `onLoadQuery` (`src/frontend/src/services/api.ts` blob,
lines 491-503): loading parses `query_json` with `JSON.parse` and installs
the parsed value as the live tree. -/
def onLoadQueryJson (s : String) : Option Json := jparse s

/-- C9: serializing a RuleGroup tree to JSON as done on save and parsing
that JSON back as done on load yields a structurally equal tree: the
parsed value is exactly the saved tree's JSON image, and the image
determines the tree uniquely (same shape, same field/operator/value
content in every rule, sibling order preserved in every group). -/
theorem save_then_load_roundtrip (t : QNode) :
    onLoadQueryJson (handleSaveQueryJson t) = some (encodeNode t)
    ∧ (∀ t2 : QNode, encodeNode t = encodeNode t2 → t = t2) :=
  ⟨jparse_jstringify (encodeNode t), fun t2 h => encodeNode_inj t t2 h⟩

/-- A concrete saved tree: an AND group holding a rule and a nested OR
group with an explicit `not` flag. -/
def qEx : QNode :=
  .group "and"
    [.rule "category" "=" (.str "Electronics"),
     .group "or" [.rule "price" "<" (.num 500)] (some false)]
    none

theorem c9_witness :
    onLoadQueryJson (handleSaveQueryJson qEx) = some (encodeNode qEx) ∧ qEx = qEx :=
  ⟨(save_then_load_roundtrip qEx).1, (save_then_load_roundtrip qEx).2 qEx rfl⟩

end QB
